import Mathlib

/-!
Verification of the llama_jax inference core against its specification.

This file shallowly embeds the code of src/llama_jax/model.py,
src/llama_jax/layer.py and src/llama_jax/rms_norm.py.  JAX arrays are
modelled as (nested) lists of real numbers; machine floats are modelled as
real numbers; a Python assertion failure or raised exception is an error
value of an Except type.  Collaborating modules that the excerpt references
but does not contain (attention, kv_cache, rope, embeddings, head, ffn,
the JAX pseudo-random generator) are modelled from the specification and
carry a doc comment saying so.
-/

namespace LlamaJax

/-- Modelled from the spec: the splittable pseudo-random generator state
threaded through the sampler (spec section 9, randomness threading).  The
JAX PRNG is an external collaborator; it is modelled as a counter-based
generator: a state is a natural number, splitting derives fresh states by
mixing, and each state determines one uniform draw in the interval 0..1. -/
abbrev PRNGKey := ℕ

/-- Modelled from the spec: jax.random.split, deriving n fresh disjoint
states from one incoming state. -/
def splitKey (key : PRNGKey) (n : ℕ) : List PRNGKey :=
  (List.range n).map
    (fun i => (key * 6364136223846793005 + i * 1442695040888963407 + 1) % 2 ^ 64)

/-- Modelled from the spec: the uniform draw in the half-open unit interval
that one PRNG state determines (used by the weighted choice). -/
noncomputable def uniformUnit (key : PRNGKey) : ℝ :=
  ((key % 2 ^ 64 : ℕ) : ℝ) / (2 ^ 64 : ℝ)

/-- Running cumulative sums with a starting accumulator. -/
def cumsumFrom (acc : ℝ) : List ℝ → List ℝ
  | [] => []
  | v :: vs => (acc + v) :: cumsumFrom (acc + v) vs

/-- Embedding of jnp.cumsum along the value axis of one row. -/
def cumsum (xs : List ℝ) : List ℝ := cumsumFrom 0 xs

/-- Embedding of jnp.argmax on one row of reals: the first index attaining
the maximum value.  On the empty row jnp.argmax raises instead; every call
site below guards that case, so the value 0 returned here is never used. -/
noncomputable def argmax : List ℝ → ℕ
  | [] => 0
  | [_] => 0
  | v :: vs => if v < vs.getD (argmax vs) 0 then argmax vs + 1 else 0

/-- Index/value pairs of a row, indices starting at a given offset. -/
def enumFrom (i : ℕ) : List ℝ → List (ℕ × ℝ)
  | [] => []
  | v :: vs => (i, v) :: enumFrom (i + 1) vs

/-- Selection step of the stable descending sort: the first pair holding the
maximal value, together with the remaining pairs in their original order. -/
noncomputable def pickBest : List (ℕ × ℝ) → Option ((ℕ × ℝ) × List (ℕ × ℝ))
  | [] => none
  | p :: ps =>
    match pickBest ps with
    | none => some (p, [])
    | some (q, rest) => if p.2 < q.2 then some (q, p :: rest) else some (p, ps)

/-- Fuelled selection sort producing pairs in descending value order, ties
broken by ascending original index. -/
noncomputable def sortDescAux : ℕ → List (ℕ × ℝ) → List (ℕ × ℝ)
  | 0, _ => []
  | fuel + 1, l =>
    match pickBest l with
    | none => []
    | some (b, rest) => b :: sortDescAux fuel rest

/-- Embedding of jnp.argsort(probs, descending=True) on one row: the index
permutation that sorts the row into descending order, stably (equal values
keep their ascending original index order). -/
noncomputable def argsortDesc (row : List ℝ) : List ℕ :=
  (sortDescAux row.length (enumFrom 0 row)).map Prod.fst

/-- Embedding of jax.nn.softmax along the value axis, one row at a time. -/
noncomputable def softmaxRow (row : List ℝ) : List ℝ :=
  row.map (fun v => Real.exp v / (row.map Real.exp).sum)

open Classical in
/-- Index of the first entry satisfying a predicate, if any.  Combined with
a fallback this embeds jnp.argmax over a boolean mask (first true entry). -/
noncomputable def firstIdxWhere (p : ℝ → Prop) : List ℝ → Option ℕ
  | [] => none
  | c :: cs => if p c then some 0 else (firstIdxWhere p cs).map (fun i => i + 1)

/-- Embedding of model.sample_top_k: keep the first top_k columns of the
descending-sorted probability rows (default 50), then assert that the
resulting width equals top_k, mirroring the line
assert probs.shape[-1] == top_k.  A failed assertion is an error value. -/
def sample_top_k (probs : List (List ℝ)) (top_k : Option ℕ) : Except String (List (List ℝ)) :=
  let k := top_k.getD 50
  let trimmed := probs.map (fun r => r.take k)
  if trimmed.all (fun r => r.length = k) then .ok trimmed
  else .error "AssertionError: probs.shape[-1] == top_k"

/-- Top-p truncation of one descending-sorted probability row: the
threshold is the first index where the cumulative probability reaches
top_p, or 0 when no index does (jnp.argmax of the all-false mask is 0),
and every entry strictly after the threshold is zeroed by the index mask
(indices <= threshold). -/
noncomputable def topPRow (p : ℝ) (row : List ℝ) : List ℝ :=
  let threshold :=
    match firstIdxWhere (fun c => p ≤ c) (cumsum row) with
    | some i => i
    | none => 0
  row.mapIdx (fun j v => if j ≤ threshold then v else 0)

/-- Embedding of model.sample_top_p over the batch (default top_p is 0.9).
jnp.argmax raises on an empty value axis, modelled as an error value. -/
noncomputable def sample_top_p (probs : List (List ℝ)) (top_p : Option ℝ) :
    Except String (List (List ℝ)) :=
  let p := top_p.getD (9 / 10)
  if probs.any (fun r => r.isEmpty) then .error "ValueError: argmax over an empty axis"
  else .ok (probs.map (topPRow p))

/-- Modelled from the spec: jax.random.choice with probability weights on
the index pool (an external collaborator), drawn by inverse CDF from the
uniform value of the key. -/
noncomputable def choiceIdx (key : PRNGKey) (weights : List ℝ) : ℕ :=
  match firstIdxWhere (fun c => uniformUnit key < c) (cumsum weights) with
  | some i => i
  | none => weights.length - 1

/-- Embedding of model.select_index on one batch row: renormalize the
surviving probabilities by their sum and draw one index weighted by the
result. -/
noncomputable def select_index (probs : List ℝ) (key : PRNGKey) : ℕ :=
  choiceIdx key (probs.map (fun v => v / probs.sum))

/-- Embedding of the line indices = jnp.argsort(probs, descending=True)
of model.sample_tokens: the per-row stable descending index permutation. -/
noncomputable def sortIndices (probs : List (List ℝ)) : List (List ℕ) :=
  probs.map argsortDesc

/-- Embedding of probs = jnp.take_along_axis(probs, indices, axis): gather
each row of probs through its index row. -/
noncomputable def takeAlongRows (probs : List (List ℝ)) (idxs : List (List ℕ)) :
    List (List ℝ) :=
  List.zipWith (fun r idx => idx.map (fun i => r.getD i 0)) probs idxs

/-- Embedding of the final gather of model.sample_tokens: reshape the
selected rank back to one index per row (keepdims) and map it through the
stored sort permutation, next_token_id = take_along_axis(indices,
selected). -/
def takeAlongKeepdims (idxs : List (List ℕ)) (selected : List ℕ) :
    List (List ℕ) :=
  List.zipWith (fun idx s => [idx.getD s 0]) idxs selected

/-- Embedding of model.sample_tokens.  The temperature defaults to 0.6;
a missing key with non-zero temperature raises ValueError; temperature 0
returns the per-row argmax with the key unchanged; otherwise the logits are
temperature-scaled, converted to probabilities, sorted descending with
their index permutation, truncated by top_k then top_p, and one index per
row is drawn by the split subkeys and mapped back through the permutation. -/
noncomputable def sample_tokens (logits : List (List ℝ)) (key : Option PRNGKey)
    (temperature : Option ℝ) (top_k : Option ℕ) (top_p : Option ℝ) :
    Except String (List (List ℕ) × Option PRNGKey) :=
  let n_batches := logits.length
  let temp := temperature.getD (3 / 5)
  if key = none ∧ temp ≠ 0 then
    .error "ValueError: Key must be specified unless temperature is 0."
  else if temp = 0 then
    if logits.any (fun r => r.isEmpty) then .error "ValueError: argmax over an empty axis"
    else .ok (logits.map (fun r => [argmax r]), key)
  else
    let probs := (logits.map (fun r => r.map (fun v => v / temp))).map softmaxRow
    let indices := sortIndices probs
    let sorted := takeAlongRows probs indices
    match sample_top_k sorted top_k with
    | .error e => .error e
    | .ok topk =>
      match sample_top_p topk top_p with
      | .error e => .error e
      | .ok topp =>
        match key with
        | none => .error "ValueError: Key must be specified unless temperature is 0."
        | some k =>
          let keys := splitKey k (n_batches + 1)
          let next_key := keys.headD k
          let subkeys := keys.tail
          let selected := List.zipWith select_index topp subkeys
          .ok (takeAlongKeepdims indices selected, some next_key)

/-- Model of a JAX array at the granularity the model-level claims need:
a nested array tree with real scalars at the leaves. -/
inductive Tensor where
  | scalar (v : ℝ)
  | arr (ts : List Tensor)

/-- Embedding of the ndim attribute of a JAX array: the nesting depth along
the first spine (JAX arrays are rectangular, so the first child determines
the rank of the remaining dimensions). -/
def Tensor.ndim : Tensor → ℕ
  | .scalar _ => 0
  | .arr [] => 1
  | .arr (t :: _) => t.ndim + 1

/-- Modelled from the spec: LayerKVCache (spec section 3), the per-layer
accumulated key tensor and value tensor.  It is a named tuple of two
tensors; in particular it has no ndim attribute of its own. -/
structure LayerKVCache where
  keys : Tensor
  values : Tensor

/-- A dynamically typed Python value as it flows through the layer loop of
model.forward: either a JAX array or a per-layer key/value cache. -/
inductive PyVal where
  | tensor (t : Tensor)
  | kvcache (c : LayerKVCache)

/-- Embedding of Python attribute lookup of ndim on a dynamically typed
value: arrays expose their rank, a LayerKVCache named tuple has no such
attribute and raises AttributeError. -/
def pyNdim : PyVal → Except String ℕ
  | .tensor t => .ok t.ndim
  | .kvcache _ => .error "AttributeError: LayerKVCache object has no attribute ndim"

/-- Modelled from the spec: the seen length of a per-layer cache tensor of
logical shape batch x kv_heads x seen_length x head_dimension (the length
of the third axis, 0 for the empty cache). -/
def seenLength : Tensor → ℕ
  | .arr (.arr (.arr seq :: _) :: _) => seq.length
  | _ => 0

/-- Modelled from the spec: kv_cache.length, the shared seen length of the
per-layer caches (all layers agree between forward calls). -/
def kvCacheLength (c : List LayerKVCache) : ℕ :=
  seenLength ((c.headD ⟨.arr [], .arr []⟩).keys)

/-- Modelled from the spec: the configuration object (spec section 6); only
the fields the embedded code reads are listed. -/
structure ModelConfig where
  n_layers : ℕ
  d_model : ℕ
  n_heads : ℕ
  n_kv_heads : ℕ
  d_head : ℕ
  rms_norm_eps : ℝ

/-- Modelled from the spec: kv_cache.create, one empty per-layer cache for
each decoder layer. -/
def kvCacheCreate (config : ModelConfig) : List LayerKVCache :=
  List.replicate config.n_layers ⟨.arr [], .arr []⟩

/-- Modelled from the spec: the rotary-embedding tables built once per
forward call for the total sequence length (spec section 4.1).  No settled
claim depends on the rotation coefficients, only on the threading of one
table per call, so only the length parameter is carried. -/
structure Rope where
  len : ℕ

/-- Modelled from the spec: rope.create for positions 0..n-1. -/
def ropeCreate (_config : ModelConfig) (n : ℕ) : Rope := ⟨n⟩

/-- Modelled from the spec: attention.attention_mask (spec section 4.2 and
test_masked_attention_bias): a query_length x query_length matrix, zero at
and below the diagonal and negative infinity strictly above it.  The dtype
argument of the source selects machine precision and has no counterpart in
the real-number model. -/
def attention_mask (query_length : ℕ) : List (List EReal) :=
  (List.range query_length).map
    (fun i => (List.range query_length).map
      (fun j => if j ≤ i then (0 : EReal) else ⊥))

/-- Modelled from the spec: the four per-layer attention projection weights
(spec section 3). -/
structure Attention where
  queries : List (List ℝ)
  keys : List (List ℝ)
  values : List (List ℝ)
  output : List (List ℝ)

/-- Modelled from the spec: the feed-forward collaborator (spec section 6),
an abstract shape-preserving transform of the hidden representation. -/
structure FFN where
  f : Tensor → Tensor

/-- Embedding of the Layer named tuple of layer.py. -/
structure Layer where
  attention : Attention
  ffn : FFN

/-- Modelled from the spec: embeddings state, a vocabulary-indexed table of
model_dim rows (spec section 6). -/
structure Embeddings where
  table : List (List ℝ)

/-- Modelled from the spec: the output head collaborator (spec section 6),
an abstract map from hidden states to logits. -/
structure Head where
  f : Tensor → Tensor

/-- Embedding of the Model named tuple of model.py. -/
structure Model where
  embeddings : Embeddings
  layers : List Layer
  head : Head

/-- Modelled from the spec: embeddings.forward, mapping an integer token
array of shape batch x length to a rank-3 float tensor of shape
batch x length x model_dim by table lookup (spec section 6). -/
def embeddingsForward (_config : ModelConfig) (state : Embeddings)
    (tokens : List (List ℕ)) : Tensor :=
  .arr (tokens.map (fun row =>
    .arr (row.map (fun t => .arr ((state.table.getD t []).map .scalar)))))

/-- Modelled from the spec: attention.forward (spec section 4.4), whose
signature per the spec and per test_forward_0 takes the layer cache before
the hidden representation: forward(config, state, rope, mask, cache, x).
Only the calling protocol is modelled (argument kinds and the rank-3
check of the representation); the score computation and the cache append
are outside every claim settled in this file, so the representation and
cache pass through unchanged. -/
def attentionForward (_config : ModelConfig) (_state : Attention) (_rope : Rope)
    (_mask : List (List EReal)) (cache : PyVal) (x : PyVal) :
    Except String (PyVal × PyVal) :=
  match cache, x with
  | .kvcache c, .tensor t =>
      if t.ndim = 3 then .ok (.tensor t, .kvcache c)
      else .error "AssertionError: attention input rank"
  | _, _ => .error "TypeError: attention.forward expects (cache, tensor)"

/-- Modelled from the spec: ffn.forward, applied to a rank-3 hidden
representation (spec section 6). -/
def ffnForward (_config : ModelConfig) (state : FFN) (x : PyVal) :
    Except String PyVal :=
  match x with
  | .tensor t => .ok (.tensor (state.f t))
  | _ => .error "TypeError: ffn.forward expects a tensor"

/-- Embedding of layer.forward of layer.py.  Its parameter list is
forward(config, state, rope, mask, x, kv_cache) - the representation
BEFORE the cache - and its body first runs assert x.ndim == 3 and then
passes (x, kv_cache) positionally into attention.forward, whose own
parameter order is (cache, x). -/
def layerForward (config : ModelConfig) (state : Layer) (rope : Rope)
    (mask : List (List EReal)) (x : PyVal) (kv_cache : PyVal) :
    Except String (PyVal × PyVal) :=
  match pyNdim x with
  | .error e => .error e
  | .ok n =>
    if n = 3 then
      match attentionForward config state.attention rope mask x kv_cache with
      | .error e => .error e
      | .ok (x2, kvc2) =>
        match ffnForward config state.ffn x2 with
        | .error e => .error e
        | .ok x3 => .ok (x3, kvc2)
    else .error "AssertionError: x.ndim == 3"

/-- The query length read by model.forward: tokens.shape[-1] of the rank-2
token array. -/
def queryLength (tokens : List (List ℕ)) : ℕ := (tokens.headD []).length

/-- The causal-mask construction of model.forward (lines 82 and 91 of
model.py): mask = ll.attention.attention_mask(query_length, config.dtype),
extracted as a definition.  Note the cache length does not enter. -/
def forwardMask (tokens : List (List ℕ)) : List (List EReal) :=
  attention_mask (queryLength tokens)

/-- The layer loop of model.forward (line 100-101 of model.py): for each
layer i in order, x, kvc[i] = ll.layer.forward(config, layer, rope, mask,
kvc[i], x) - the cache slice is passed as the fifth positional argument and
the running representation as the sixth. -/
def applyLayers (config : ModelConfig) (rope : Rope) (mask : List (List EReal)) :
    List Layer → PyVal → List PyVal → ℕ → Except String (PyVal × List PyVal)
  | [], x, kvc, _ => .ok (x, kvc)
  | l :: ls, x, kvc, i =>
    match layerForward config l rope mask (kvc.getD i (.tensor (.arr []))) x with
    | .error e => .error e
    | .ok (x2, ci2) => applyLayers config rope mask ls x2 (kvc.set i ci2) (i + 1)

/-- Embedding of model.forward of model.py: defaults the cache, computes
the query length, total length, rope and mask, maps tokens to embeddings,
makes the cache mutable, runs the layer loop, freezes the cache back and
applies the head; the updated cache is returned exactly when one was
passed in. -/
def modelForward (config : ModelConfig) (state : Model) (tokens : List (List ℕ))
    (kv_cache : Option (List LayerKVCache)) :
    Except String (Tensor × Option (List PyVal)) :=
  let external_cache := kv_cache.isSome
  let kvc0 := kv_cache.getD (kvCacheCreate config)
  let n := kvCacheLength kvc0 + queryLength tokens
  let rope := ropeCreate config n
  let mask := forwardMask tokens
  let x := embeddingsForward config state.embeddings tokens
  let kvcM : List PyVal := kvc0.map .kvcache
  match applyLayers config rope mask state.layers (.tensor x) kvcM 0 with
  | .error e => .error e
  | .ok (x2, frozen) =>
    match x2 with
    | .tensor t => .ok (state.head.f t, if external_cache then some frozen else none)
    | _ => .error "TypeError: head.forward expects a tensor"

/-- Embedding of the RMSNorm named tuple of rms_norm.py. -/
structure RMSNorm where
  weight : List ℝ
  eps : ℝ

/-- The mean of the squares of every element of a rank-2 array jointly,
embedding jnp.mean(x ** 2) with no axis argument. -/
noncomputable def meanSqAll (x : List (List ℝ)) : ℝ :=
  (x.map (fun row => (row.map (fun v => v ^ 2)).sum)).sum /
    ((x.map List.length).sum : ℕ)

/-- Embedding of rms_norm.forward:
state.weight * x / jnp.sqrt(jnp.mean(x ** 2) + state.eps).  The weight
broadcasts along the last axis and the square-root denominator is the one
scalar computed from the whole tensor. -/
noncomputable def rmsNormForward (state : RMSNorm) (x : List (List ℝ)) :
    List (List ℝ) :=
  x.map (fun row =>
    (List.zipWith (fun w v => w * v) state.weight row).map
      (fun u => u / Real.sqrt (meanSqAll x + state.eps)))

/-- A concrete one-layer configuration for evaluating model.forward. -/
def exConfig : ModelConfig := ⟨1, 2, 1, 1, 2, 0⟩

/-- A concrete decoder layer with identity feed-forward collaborator. -/
def exLayer : Layer := ⟨⟨[[1, 0], [0, 1]], [[1, 0], [0, 1]], [[1, 0], [0, 1]], [[1, 0], [0, 1]]⟩, ⟨fun t => t⟩⟩

/-- A concrete one-layer model with identity head collaborator. -/
def exModel : Model := ⟨⟨[[1, 0], [0, 1]]⟩, [exLayer], ⟨fun t => t⟩⟩

/-- A concrete external kv cache with one empty layer slice. -/
def exEmptyCache : List LayerKVCache := [⟨.arr [], .arr []⟩]

/-- A concrete kv cache whose single layer slice has seen length 1
(logical shape 1 x 1 x 1 x 1). -/
def exCacheLen1 : List LayerKVCache :=
  [⟨.arr [.arr [.arr [.arr [.scalar 0]]]], .arr [.arr [.arr [.arr [.scalar 0]]]]⟩]

theorem uniformUnit_nonneg (key : PRNGKey) : 0 ≤ uniformUnit key := by
  unfold uniformUnit
  positivity

theorem uniformUnit_lt_one (key : PRNGKey) : uniformUnit key < 1 := by
  unfold uniformUnit
  rw [div_lt_one (by positivity)]
  exact_mod_cast Nat.mod_lt _ (by positivity)

theorem cumsumFrom_length (acc : ℝ) (xs : List ℝ) :
    (cumsumFrom acc xs).length = xs.length := by
  induction xs generalizing acc with
  | nil => rfl
  | cons v vs ih => simpa [cumsumFrom] using ih _

theorem cumsum_length (xs : List ℝ) : (cumsum xs).length = xs.length :=
  cumsumFrom_length 0 xs

theorem argmax_lt_length (xs : List ℝ) (h : xs ≠ []) : argmax xs < xs.length := by
  induction xs with
  | nil => cases h rfl
  | cons v vs ih =>
    cases vs with
    | nil => simp [argmax]
    | cons w ws =>
      rw [show argmax (v :: w :: ws) =
          (if v < (w :: ws).getD (argmax (w :: ws)) 0
           then argmax (w :: ws) + 1 else 0) from rfl]
      split
      · simpa using ih (by simp)
      · simp

/-- The index computed by argmax attains the maximum of the row, and every
strictly earlier index holds a strictly smaller value: argmax embeds the
first-occurrence-of-the-maximum convention of jnp.argmax. -/
theorem argmax_spec (xs : List ℝ) (h : xs ≠ []) :
    (∀ i < xs.length, xs.getD i 0 ≤ xs.getD (argmax xs) 0) ∧
    (∀ i < argmax xs, xs.getD i 0 < xs.getD (argmax xs) 0) := by
  induction xs with
  | nil => cases h rfl
  | cons v vs ih =>
    cases vs with
    | nil =>
      refine ⟨?_, ?_⟩
      · intro i hi
        have : i = 0 := by simpa using hi
        subst this
        simp [argmax]
      · intro i hi
        simp [argmax] at hi
    | cons w ws =>
      obtain ⟨hmax, hfirst⟩ := ih (by simp)
      rw [show argmax (v :: w :: ws) =
          (if v < (w :: ws).getD (argmax (w :: ws)) 0
           then argmax (w :: ws) + 1 else 0) from rfl]
      split
      · rename_i hlt
        refine ⟨?_, ?_⟩
        · intro i hi
          cases i with
          | zero => simpa using hlt.le
          | succ j =>
            simp only [List.getD_cons_succ]
            exact hmax j (by simpa using hi)
        · intro i hi
          cases i with
          | zero => simpa using hlt
          | succ j =>
            simp only [List.getD_cons_succ]
            exact hfirst j (by omega)
      · rename_i hge
        push_neg at hge
        refine ⟨?_, ?_⟩
        · intro i hi
          cases i with
          | zero => simp
          | succ j =>
            simp only [List.getD_cons_succ, List.getD_cons_zero]
            exact le_trans (hmax j (by simpa using hi)) hge
        · intro i hi
          omega

/-- A pointwise strictly monotone transformation of a row does not change
the argmax index. -/
theorem argmax_map (f : ℝ → ℝ) (hf : ∀ a b : ℝ, a < b ↔ f a < f b)
    (xs : List ℝ) : argmax (xs.map f) = argmax xs := by
  induction xs with
  | nil => rfl
  | cons v vs ih =>
    cases vs with
    | nil => rfl
    | cons w ws =>
      have hlen : argmax (w :: ws) < (w :: ws).length :=
        argmax_lt_length _ (by simp)
      have hlenm : argmax ((w :: ws).map f) < ((w :: ws).map f).length := by
        rw [ih]; simpa using hlen
      have hgetD : ((w :: ws).map f).getD (argmax ((w :: ws).map f)) 0 =
          f ((w :: ws).getD (argmax (w :: ws)) 0) := by
        rw [ih, List.getD_eq_getElem _ _ (by simpa using hlen),
          List.getD_eq_getElem _ _ hlen]
        exact List.getElem_map f
      rw [show (v :: w :: ws).map f = f v :: (w :: ws).map f from rfl]
      rw [show argmax (f v :: (w :: ws).map f) =
          (if f v < ((w :: ws).map f).getD (argmax ((w :: ws).map f)) 0
           then argmax ((w :: ws).map f) + 1 else 0) from rfl]
      rw [show argmax (v :: w :: ws) =
          (if v < (w :: ws).getD (argmax (w :: ws)) 0
           then argmax (w :: ws) + 1 else 0) from rfl]
      rw [hgetD, ih]
      by_cases hc : v < (w :: ws).getD (argmax (w :: ws)) 0
      · rw [if_pos ((hf _ _).mp hc), if_pos hc]
      · rw [if_neg (fun hm => hc ((hf _ _).mpr hm)), if_neg hc]

theorem pickBest_enumFrom (row : List ℝ) (h : row ≠ []) (i : ℕ) :
    ∃ rest, pickBest (enumFrom i row) =
      some ((i + argmax row, row.getD (argmax row) 0), rest) := by
  induction row generalizing i with
  | nil => cases h rfl
  | cons v vs ih =>
    cases vs with
    | nil => exact ⟨[], by simp [enumFrom, pickBest, argmax]⟩
    | cons w ws =>
      obtain ⟨rest, hrest⟩ := ih (by simp) (i + 1)
      by_cases hc : v < (w :: ws).getD (argmax (w :: ws)) 0
      · have ha : argmax (v :: w :: ws) = argmax (w :: ws) + 1 := by
          rw [show argmax (v :: w :: ws) =
            (if v < (w :: ws).getD (argmax (w :: ws)) 0
             then argmax (w :: ws) + 1 else 0) from rfl, if_pos hc]
        refine ⟨(i, v) :: rest, ?_⟩
        rw [show enumFrom i (v :: w :: ws) = (i, v) :: enumFrom (i + 1) (w :: ws) from rfl]
        rw [show pickBest ((i, v) :: enumFrom (i + 1) (w :: ws)) =
            (match pickBest (enumFrom (i + 1) (w :: ws)) with
             | none => some ((i, v), [])
             | some (q, rest2) => if v < q.2 then some (q, (i, v) :: rest2)
                 else some ((i, v), enumFrom (i + 1) (w :: ws))) from rfl]
        rw [hrest]
        dsimp only
        rw [if_pos hc, ha]
        simp [List.getD_cons_succ]
        omega
      · have ha : argmax (v :: w :: ws) = 0 := by
          rw [show argmax (v :: w :: ws) =
            (if v < (w :: ws).getD (argmax (w :: ws)) 0
             then argmax (w :: ws) + 1 else 0) from rfl, if_neg hc]
        refine ⟨enumFrom (i + 1) (w :: ws), ?_⟩
        rw [show enumFrom i (v :: w :: ws) = (i, v) :: enumFrom (i + 1) (w :: ws) from rfl]
        rw [show pickBest ((i, v) :: enumFrom (i + 1) (w :: ws)) =
            (match pickBest (enumFrom (i + 1) (w :: ws)) with
             | none => some ((i, v), [])
             | some (q, rest2) => if v < q.2 then some (q, (i, v) :: rest2)
                 else some ((i, v), enumFrom (i + 1) (w :: ws))) from rfl]
        rw [hrest]
        dsimp only
        rw [if_neg hc, ha]
        simp

/-- The first entry of the stable descending argsort is the first index
attaining the maximum of the row. -/
theorem argsortDesc_head (row : List ℝ) (h : row ≠ []) :
    ∃ tl, argsortDesc row = argmax row :: tl := by
  obtain ⟨rest, hrest⟩ := pickBest_enumFrom row h 0
  have hlen : ∃ m, row.length = m + 1 := by
    cases row with
    | nil => cases h rfl
    | cons v vs => exact ⟨vs.length, by simp⟩
  obtain ⟨m, hm⟩ := hlen
  refine ⟨(sortDescAux m rest).map Prod.fst, ?_⟩
  unfold argsortDesc
  rw [hm]
  rw [show sortDescAux (m + 1) (enumFrom 0 row) =
      (match pickBest (enumFrom 0 row) with
       | none => []
       | some (b, rest) => b :: sortDescAux m rest) from rfl]
  rw [hrest]
  simp

theorem enumFrom_length (i : ℕ) (row : List ℝ) :
    (enumFrom i row).length = row.length := by
  induction row generalizing i with
  | nil => rfl
  | cons v vs ih => simpa [enumFrom] using ih (i + 1)

theorem pickBest_eq_none (l : List (ℕ × ℝ)) : pickBest l = none ↔ l = [] := by
  cases l with
  | nil => simp [pickBest]
  | cons p ps =>
    simp only [pickBest]
    constructor
    · intro h
      cases hps : pickBest ps with
      | none => rw [hps] at h; simp at h
      | some q =>
        rw [hps] at h
        obtain ⟨b, rest⟩ := q
        by_cases hc : p.2 < b.2 <;> simp [hc] at h
    · intro h
      cases h

theorem pickBest_some_length (l : List (ℕ × ℝ)) (b : ℕ × ℝ) (rest : List (ℕ × ℝ))
    (h : pickBest l = some (b, rest)) : rest.length + 1 = l.length := by
  induction l generalizing b rest with
  | nil => simp [pickBest] at h
  | cons p ps ih =>
    simp only [pickBest] at h
    cases hps : pickBest ps with
    | none =>
      rw [hps] at h
      have hnil : ps = [] := (pickBest_eq_none ps).mp hps
      simp only [Option.some.injEq, Prod.mk.injEq] at h
      rw [← h.2, hnil]
      rfl
    | some q =>
      obtain ⟨b2, rest2⟩ := q
      rw [hps] at h
      dsimp only at h
      have hlen2 := ih b2 rest2 hps
      by_cases hc : p.2 < b2.2
      · rw [if_pos hc] at h
        simp only [Option.some.injEq, Prod.mk.injEq] at h
        rw [← h.2]
        simp only [List.length_cons]
        omega
      · rw [if_neg hc] at h
        simp only [Option.some.injEq, Prod.mk.injEq] at h
        rw [← h.2]
        rfl

theorem sortDescAux_length (fuel : ℕ) : ∀ l : List (ℕ × ℝ), l.length ≤ fuel →
    (sortDescAux fuel l).length = l.length := by
  induction fuel with
  | zero =>
    intro l hl
    have : l = [] := List.length_eq_zero.mp (by omega)
    rw [this]
    rfl
  | succ fuel ih =>
    intro l hl
    cases hpb : pickBest l with
    | none =>
      have : l = [] := (pickBest_eq_none l).mp hpb
      rw [this]
      rfl
    | some q =>
      obtain ⟨b, rest⟩ := q
      have hrl := pickBest_some_length l b rest hpb
      rw [show sortDescAux (fuel + 1) l =
          (match pickBest l with
           | none => []
           | some (b, rest) => b :: sortDescAux fuel rest) from rfl, hpb]
      simp only [List.length_cons, ih rest (by omega)]
      omega

theorem argsortDesc_length (row : List ℝ) :
    (argsortDesc row).length = row.length := by
  unfold argsortDesc
  rw [List.length_map, sortDescAux_length row.length (enumFrom 0 row)
    (by rw [enumFrom_length])]
  exact enumFrom_length 0 row

theorem sum_exp_pos (row : List ℝ) (h : row ≠ []) : 0 < (row.map Real.exp).sum := by
  cases row with
  | nil => cases h rfl
  | cons v vs =>
    have hnn : 0 ≤ (vs.map Real.exp).sum :=
      List.sum_nonneg (by
        intro x hx
        obtain ⟨y, _, rfl⟩ := List.mem_map.mp hx
        exact (Real.exp_pos y).le)
    have := Real.exp_pos v
    simp only [List.map_cons, List.sum_cons]
    linarith

theorem softmaxRow_length (row : List ℝ) : (softmaxRow row).length = row.length := by
  simp [softmaxRow]

/-- Every softmax output entry is strictly positive. -/
theorem softmaxRow_pos (row : List ℝ) (h : row ≠ []) :
    ∀ x ∈ softmaxRow row, 0 < x := by
  intro x hx
  obtain ⟨v, _, rfl⟩ := List.mem_map.mp hx
  exact div_pos (Real.exp_pos v) (sum_exp_pos row h)

/-- Softmax is a pointwise strictly monotone transformation of its row, so
it does not change the argmax index. -/
theorem argmax_softmaxRow (row : List ℝ) (h : row ≠ []) :
    argmax (softmaxRow row) = argmax row := by
  unfold softmaxRow
  refine argmax_map _ (fun a b => ?_) row
  rw [div_lt_div_iff_of_pos_right (sum_exp_pos row h), Real.exp_lt_exp]

theorem firstIdxWhere_eq_some (p : ℝ → Prop) (cs : List ℝ) (t : ℕ)
    (ht : t < cs.length) (hp : p (cs.getD t 0))
    (hb : ∀ j < t, ¬ p (cs.getD j 0)) :
    firstIdxWhere p cs = some t := by
  induction cs generalizing t with
  | nil => simp at ht
  | cons c cs ih =>
    cases t with
    | zero =>
      simp only [List.getD_cons_zero] at hp
      simp [firstIdxWhere, hp]
    | succ t =>
      have hc : ¬ p c := by simpa using hb 0 (by omega)
      have hrec := ih t (by simpa using ht) (by simpa using hp)
        (fun j hj => by simpa using hb (j + 1) (by omega))
      simp [firstIdxWhere, hc, hrec]

theorem firstIdxWhere_eq_none (p : ℝ → Prop) (cs : List ℝ)
    (hb : ∀ j < cs.length, ¬ p (cs.getD j 0)) :
    firstIdxWhere p cs = none := by
  induction cs with
  | nil => rfl
  | cons c cs ih =>
    have hc : ¬ p c := by simpa using hb 0 (by simp)
    have hrec := ih (fun j hj => by simpa using hb (j + 1) (by simpa using hj))
    simp [firstIdxWhere, hc, hrec]

theorem mapIdx_mask_getD (t j : ℕ) (row : List ℝ) (hj : j < row.length) :
    (row.mapIdx (fun i v => if i ≤ t then v else 0)).getD j 0 =
      if j ≤ t then row.getD j 0 else 0 := by
  rw [List.getD_eq_getElem _ _ (by simpa using hj), List.getElem_mapIdx,
    List.getD_eq_getElem _ _ hj]

theorem sum_map_div (l : List ℝ) (c : ℝ) :
    (l.map (fun v => v / c)).sum = l.sum / c := by
  induction l with
  | nil => simp
  | cons x xs ih =>
    simp only [List.map_cons, List.sum_cons, ih]
    ring

theorem sum_pos_of_nonneg_head (l : List ℝ) (hne : l ≠ [])
    (hnn : ∀ j < l.length, 0 ≤ l.getD j 0) (h0 : 0 < l.getD 0 0) :
    0 < l.sum := by
  cases l with
  | nil => cases hne rfl
  | cons c cs =>
    have hcs : 0 ≤ cs.sum := by
      apply List.sum_nonneg
      intro x hx
      obtain ⟨i, hi, rfl⟩ := List.mem_iff_getElem.mp hx
      have h := hnn (i + 1) (by simp; omega)
      rwa [List.getD_cons_succ, List.getD_eq_getElem _ _ hi] at h
    have hc : 0 < c := by simpa using h0
    simp only [List.sum_cons]
    linarith

theorem topPRow_length (p : ℝ) (row : List ℝ) :
    (topPRow p row).length = row.length := by
  simp [topPRow]

theorem topPRow_of_threshold (p : ℝ) (row : List ℝ) (t : ℕ)
    (hthr : (match firstIdxWhere (fun c => p ≤ c) (cumsum row) with
             | some i => i
             | none => 0) = t) :
    topPRow p row = row.mapIdx (fun j v => if j ≤ t then v else 0) := by
  simp only [topPRow]
  rw [hthr]

/-- C5: on a descending-sorted probability row with strictly positive first
entry, top-p truncation keeps every entry up to the first index whose
cumulative probability reaches top_p, zeroes exactly the entries strictly
after it, and the surviving mass stays strictly positive, so the
renormalizing division of select_index (by the row sum) is a division by a
non-zero number and the renormalized row sums to 1. -/
theorem C5_top_p_keeps_positive_mass (row : List ℝ) (p : ℝ) (t : ℕ)
    (hnn : ∀ v ∈ row, 0 ≤ v) (hhead : 0 < row.getD 0 0) (hne : row ≠ [])
    (ht : t < row.length) (hp : p ≤ (cumsum row).getD t 0)
    (hb : ∀ j < t, (cumsum row).getD j 0 < p) :
    sample_top_p [row] (some p) = .ok [topPRow p row] ∧
      (topPRow p row).length = row.length ∧
      (∀ j ≤ t, (topPRow p row).getD j 0 = row.getD j 0) ∧
      (∀ j, t < j → (topPRow p row).getD j 0 = 0) ∧
      0 < (topPRow p row).sum ∧
      ((topPRow p row).map (fun v => v / (topPRow p row).sum)).sum = 1 := by
  have hemp : row.isEmpty = false := by
    cases row with
    | nil => cases hne rfl
    | cons c cs => rfl
  have hthr : (match firstIdxWhere (fun c => p ≤ c) (cumsum row) with
      | some i => i
      | none => 0) = t := by
    rw [firstIdxWhere_eq_some (fun c => p ≤ c) (cumsum row) t
      (by rw [cumsum_length]; exact ht) hp
      (fun j hj => not_le.mpr (hb j hj))]
  have htop := topPRow_of_threshold p row t hthr
  have hlen : (topPRow p row).length = row.length := topPRow_length p row
  have hkeep : ∀ j ≤ t, (topPRow p row).getD j 0 = row.getD j 0 := by
    intro j hj
    by_cases hjl : j < row.length
    · rw [htop, mapIdx_mask_getD t j row hjl, if_pos hj]
    · rw [List.getD_eq_default _ _ (by rw [hlen]; omega),
        List.getD_eq_default _ _ (by omega)]
  have hzero : ∀ j, t < j → (topPRow p row).getD j 0 = 0 := by
    intro j hj
    by_cases hjl : j < row.length
    · rw [htop, mapIdx_mask_getD t j row hjl, if_neg (by omega)]
    · rw [List.getD_eq_default _ _ (by rw [hlen]; omega)]
  have hnng : ∀ j < (topPRow p row).length, 0 ≤ (topPRow p row).getD j 0 := by
    intro j hjl
    rw [hlen] at hjl
    rw [htop, mapIdx_mask_getD t j row hjl]
    split
    · rw [List.getD_eq_getElem _ _ hjl]
      exact hnn _ (List.getElem_mem hjl)
    · exact le_refl 0
  have hsum : 0 < (topPRow p row).sum := by
    apply sum_pos_of_nonneg_head _ _ hnng
    · rw [hkeep 0 (by omega)]
      exact hhead
    · intro hcon
      rw [hcon] at hlen
      cases row with
      | nil => cases hne rfl
      | cons c cs => simp at hlen
  refine ⟨?_, hlen, hkeep, hzero, hsum, ?_⟩
  · simp [sample_top_p, hemp]
  · rw [sum_map_div, div_self (ne_of_gt hsum)]

/-- C10: on a row whose cumulative sums never reach top_p, the fallback
threshold is index 0, so top-p truncation keeps exactly the first entry
and zeroes every other entry. -/
theorem C10_top_p_fallback_keeps_first (row : List ℝ) (p : ℝ) (hne : row ≠ [])
    (hall : ∀ j < row.length, (cumsum row).getD j 0 < p) :
    sample_top_p [row] (some p) = .ok [topPRow p row] ∧
      (topPRow p row).length = row.length ∧
      (topPRow p row).getD 0 0 = row.getD 0 0 ∧
      (∀ j, 0 < j → (topPRow p row).getD j 0 = 0) := by
  have hemp : row.isEmpty = false := by
    cases row with
    | nil => cases hne rfl
    | cons c cs => rfl
  have hthr : (match firstIdxWhere (fun c => p ≤ c) (cumsum row) with
      | some i => i
      | none => 0) = 0 := by
    rw [firstIdxWhere_eq_none (fun c => p ≤ c) (cumsum row)
      (fun j hj => not_le.mpr (hall j (by rwa [cumsum_length] at hj)))]
  have htop := topPRow_of_threshold p row 0 hthr
  have hlen : (topPRow p row).length = row.length := topPRow_length p row
  refine ⟨by simp [sample_top_p, hemp], hlen, ?_, ?_⟩
  · have h0 : 0 < row.length := by
      cases row with
      | nil => cases hne rfl
      | cons c cs => simp
    rw [htop, mapIdx_mask_getD 0 0 row h0, if_pos (le_refl 0)]
  · intro j hj
    by_cases hjl : j < row.length
    · rw [htop, mapIdx_mask_getD 0 j row hjl, if_neg (by omega)]
    · rw [List.getD_eq_default _ _ (by rw [hlen]; omega)]

/-- C5 witness at a concrete input: the row 3/4, 1/4 with top_p 0.9 has
cumulative sums 3/4 and 1, so the threshold falls on index 1. -/
theorem C5_witness :
    sample_top_p [[(3 : ℝ) / 4, 1 / 4]] (some (9 / 10)) =
        .ok [topPRow (9 / 10) [(3 : ℝ) / 4, 1 / 4]] ∧
      0 < (topPRow ((9 : ℝ) / 10) [(3 : ℝ) / 4, 1 / 4]).sum := by
  have h := C5_top_p_keeps_positive_mass [(3 : ℝ) / 4, 1 / 4] (9 / 10) 1
    (by intro v hv; simp at hv; rcases hv with h | h <;> rw [h] <;> norm_num)
    (by norm_num)
    (by simp)
    (by norm_num)
    (by norm_num [cumsum, cumsumFrom])
    (by
      intro j hj
      have : j = 0 := by omega
      subst this
      norm_num [cumsum, cumsumFrom])
  exact ⟨h.1, h.2.2.2.2.1⟩

/-- C10 witness at a concrete input: the row 1/2, 1/4 with top_p 0.9 has
cumulative sums 1/2 and 3/4, never reaching 0.9, so only the first entry
survives. -/
theorem C10_witness :
    sample_top_p [[(1 : ℝ) / 2, 1 / 4]] (some (9 / 10)) =
        .ok [topPRow (9 / 10) [(1 : ℝ) / 2, 1 / 4]] ∧
      (topPRow ((9 : ℝ) / 10) [(1 : ℝ) / 2, 1 / 4]).getD 1 0 = 0 := by
  have h := C10_top_p_fallback_keeps_first [(1 : ℝ) / 2, 1 / 4] (9 / 10)
    (by simp)
    (by
      intro j hj
      simp only [List.length_cons, List.length_nil] at hj
      interval_cases j <;> norm_num [cumsum, cumsumFrom])
  exact ⟨h.1, h.2.2.2 1 (by omega)⟩

/-- C3 (amended): with uniform row width n, top_k = n leaves every row
untouched (no truncation, every vocabulary index still present), while any
top_k strictly greater than n trips the shape assertion of sample_top_k,
so nothing is passed on to the top-p stage at all. -/
theorem C3_top_k_at_vocab_size (probs : List (List ℝ)) (n k : ℕ)
    (hrows : ∀ r ∈ probs, r.length = n) :
    (k = n → sample_top_k probs (some k) = .ok probs) ∧
    (n < k → probs ≠ [] →
      sample_top_k probs (some k) =
        .error "AssertionError: probs.shape[-1] == top_k") := by
  constructor
  · intro hk
    subst hk
    have hmap : probs.map (fun r => r.take k) = probs := by
      have hid : ∀ r ∈ probs, r.take k = id r := fun r hr =>
        List.take_of_length_le (le_of_eq (hrows r hr))
      rw [List.map_congr_left hid, List.map_id]
    have hall : (probs.map (fun r => r.take k)).all (fun r => r.length = k) = true := by
      rw [hmap, List.all_eq_true]
      intro r hr
      simp [hrows r hr]
    simp only [sample_top_k, Option.getD_some]
    rw [if_pos hall, hmap]
  · intro hnk hne
    cases probs with
    | nil => cases hne rfl
    | cons r rest =>
      have hr : r.length = n := hrows r (by simp)
      have hall : ((r :: rest).map (fun q => q.take k)).all (fun q => q.length = k) = false := by
        rw [List.all_eq_false]
        refine ⟨r.take k, by simp, ?_⟩
        simp only [decide_eq_true_eq]
        rw [List.take_of_length_le (by omega), hr]
        omega
      simp only [sample_top_k, Option.getD_some]
      rw [if_neg (by rw [hall]; simp)]

/-- C3 counterexample to the claim as stated: with a vocabulary of size 2
and top_k = 3 (so top_k strictly greater than the vocabulary size),
sample_top_k does not pass an untruncated row on - it fails its shape
assertion. -/
theorem C3_counterexample :
    sample_top_k [[(1 : ℝ) / 2, 1 / 2]] (some 3) =
      .error "AssertionError: probs.shape[-1] == top_k" := rfl

/-- C3 witness at a concrete input: with vocabulary size 2, top_k = 2
really is the identity and top_k = 3 really is the assertion failure. -/
theorem C3_witness :
    sample_top_k [[(1 : ℝ) / 2, 1 / 2]] (some 2) = .ok [[(1 : ℝ) / 2, 1 / 2]] ∧
      sample_top_k [[(1 : ℝ) / 2, 1 / 2]] (some 4) =
        .error "AssertionError: probs.shape[-1] == top_k" :=
  ⟨(C3_top_k_at_vocab_size [[(1 : ℝ) / 2, 1 / 2]] 2 2
      (by intro r hr; simp at hr; rw [hr]; rfl)).1 rfl,
   (C3_top_k_at_vocab_size [[(1 : ℝ) / 2, 1 / 2]] 2 4
      (by intro r hr; simp at hr; rw [hr]; rfl)).2 (by omega) (by simp)⟩

/-- Shared evaluation of the temperature-0 branch of sample_tokens: the
guard passes (the conjunction requires a non-zero temperature), the greedy
branch fires, and the per-row argmax is returned with the key unchanged. -/
theorem sample_tokens_at_temp0 (logits : List (List ℝ)) (key : Option PRNGKey)
    (tk : Option ℕ) (tp : Option ℝ) (h : ∀ r ∈ logits, r ≠ []) :
    sample_tokens logits key (some 0) tk tp =
      .ok (logits.map (fun r => [argmax r]), key) := by
  have hany : logits.any (fun r => r.isEmpty) = false := by
    rw [List.any_eq_false]
    intro r hr
    simpa [List.isEmpty_iff] using h r hr
  simp [sample_tokens, hany]

/-- C4: with temperature exactly 0, sample_tokens returns the per-row
argmax of the logits (keepdims, one index per row) and hands back the
incoming rng state unchanged, drawing nothing from it. -/
theorem C4_temp0_greedy (logits : List (List ℝ)) (key : Option PRNGKey)
    (tk : Option ℕ) (tp : Option ℝ) (h : ∀ r ∈ logits, r ≠ []) :
    sample_tokens logits key (some 0) tk tp =
      .ok (logits.map (fun r => [argmax r]), key) :=
  sample_tokens_at_temp0 logits key tk tp h

/-- C4 witness at a concrete input: greedy sampling of the row 1, 2 picks
index 1 and returns key 7 unchanged. -/
theorem C4_witness :
    sample_tokens [[(1 : ℝ), 2]] (some 7) (some 0) none none =
      .ok ([[1]], some 7) := by
  have h := C4_temp0_greedy [[(1 : ℝ), 2]] (some 7) none none
    (by intro r hr; simp at hr; rw [hr]; simp)
  rw [h]
  have ha : argmax [(1 : ℝ), 2] = 1 := by
    rw [show argmax [(1 : ℝ), 2] =
      (if (1 : ℝ) < [(2 : ℝ)].getD (argmax [(2 : ℝ)]) 0 then argmax [(2 : ℝ)] + 1 else 0) from rfl]
    norm_num [argmax]
  simp only [List.map_cons, List.map_nil]
  rw [ha]

/-- C6 (amended): a missing rng state with non-zero effective temperature
raises the usage error, and temperature 0 with no rng state succeeds
greedily; the error equivalence claimed is only one-directional, since
sample_tokens can also fail with an rng state present (see the
counterexample). -/
theorem C6_missing_key_validation (logits : List (List ℝ)) (t : Option ℝ)
    (tk : Option ℕ) (tp : Option ℝ) :
    (t.getD (3 / 5) ≠ 0 →
      sample_tokens logits none t tk tp =
        .error "ValueError: Key must be specified unless temperature is 0.") ∧
    ((∀ r ∈ logits, r ≠ []) →
      sample_tokens logits none (some 0) tk tp =
        .ok (logits.map (fun r => [argmax r]), none)) := by
  constructor
  · intro ht
    simp [sample_tokens, ht]
  · intro h
    exact sample_tokens_at_temp0 logits none tk tp h

/-- C6 witness at a concrete input: default temperature 0.6 with no key is
the usage error; temperature 0 with no key succeeds. -/
theorem C6_witness :
    sample_tokens [[(1 : ℝ), 2]] none none (some 3) none =
        .error "ValueError: Key must be specified unless temperature is 0." ∧
      sample_tokens [[(1 : ℝ), 2]] none (some 0) none none =
        .ok ([[(1 : ℝ), 2]].map (fun r => [argmax r]), none) :=
  ⟨(C6_missing_key_validation [[(1 : ℝ), 2]] none (some 3) none).1 (by norm_num),
   (C6_missing_key_validation [[(1 : ℝ), 2]] (some 0) none none).2
      (by intro r hr; simp at hr; rw [hr]; simp)⟩

/-- C8: sample_tokens is a pure function of its five inputs - two calls
with the same logits, the same rng state and the same temperature, top_k
and top_p settings return the same token ids and the same successor rng
state.  In this embedding the rng state is threaded explicitly and there
is no hidden state, so the equality is definitional. -/
theorem C8_sampling_deterministic (logits1 logits2 : List (List ℝ))
    (key1 key2 : Option PRNGKey) (t1 t2 : Option ℝ) (tk1 tk2 : Option ℕ)
    (tp1 tp2 : Option ℝ) (hl : logits1 = logits2) (hk : key1 = key2)
    (ht : t1 = t2) (htk : tk1 = tk2) (htp : tp1 = tp2) :
    sample_tokens logits1 key1 t1 tk1 tp1 = sample_tokens logits2 key2 t2 tk2 tp2 := by
  rw [hl, hk, ht, htk, htp]

/-- C8 witness at a concrete input. -/
theorem C8_witness :
    sample_tokens [[(1 : ℝ)]] (some 3) (some 1) none none =
      sample_tokens [[(1 : ℝ)]] (some 3) (some 1) none none :=
  C8_sampling_deterministic [[(1 : ℝ)]] [[(1 : ℝ)]] (some 3) (some 3)
    (some 1) (some 1) none none none none rfl rfl rfl rfl rfl

/-- C1: evaluating the embedded model.forward on a one-layer model shows
the slip: the loop body x, kvc[i] = ll.layer.forward(config, layer, rope,
mask, kvc[i], x) passes the cache slice into the parameter that
layer.forward names x (its parameter order is x before kv_cache, the
reverse of its caller and of attention.forward), so the sanity check
assert x.ndim == 3 looks up ndim on a LayerKVCache named tuple and the
whole forward call fails instead of returning logits. -/
theorem C1_layer_argument_order_bug :
    modelForward exConfig exModel [[0]] (some exEmptyCache) =
      .error "AttributeError: LayerKVCache object has no attribute ndim" := rfl

/-- C2 (amended): the causal-mask bias model.forward builds is
query_length x query_length - the causal triangle alone, zero at or below
the diagonal and negative infinity above - and is computed from the query
length only, so the prior cache length adds no zero-padded left columns. -/
theorem C2_mask_is_query_square (tokens : List (List ℕ)) (i j : ℕ)
    (hi : i < queryLength tokens) (hj : j < queryLength tokens) :
    (forwardMask tokens).length = queryLength tokens ∧
      ((forwardMask tokens).getD i []).length = queryLength tokens ∧
      ((forwardMask tokens).getD i []).getD j 0 =
        (if j ≤ i then (0 : EReal) else ⊥) := by
  unfold forwardMask attention_mask
  refine ⟨by simp, ?_, ?_⟩
  · rw [List.getD_eq_getElem _ _ (by simpa using hi)]
    simp
  · have hrow : ((List.range (queryLength tokens)).map
        (fun a => (List.range (queryLength tokens)).map
          (fun b => if b ≤ a then (0 : EReal) else ⊥))).getD i [] =
        (List.range (queryLength tokens)).map
          (fun b => if b ≤ i then (0 : EReal) else ⊥) := by
      rw [List.getD_eq_getElem _ _ (by simpa using hi)]
      simp only [List.getElem_map, List.getElem_range]
    rw [hrow, List.getD_eq_getElem _ _ (by simpa using hj)]
    simp only [List.getElem_map, List.getElem_range]

/-- C2 counterexample to the claim as stated: with one cached position
(P = 1) and one query token (L = 1), the claim requires an L x (P + L),
so 1 x 2, mask; the mask model.forward builds has its single row of width
1, not 2. -/
theorem C2_counterexample :
    ((forwardMask [[5]]).map List.length = [1]) ∧
      kvCacheLength exCacheLen1 + queryLength [[5]] = 2 ∧
      (1 : ℕ) ≠ 2 :=
  ⟨rfl, rfl, by omega⟩

/-- C2 witness at a concrete input: a two-token query yields a 2 x 2
causal triangle. -/
theorem C2_witness :
    (forwardMask [[5, 6]]).length = queryLength [[5, 6]] ∧
      ((forwardMask [[5, 6]]).getD 1 []).length = queryLength [[5, 6]] ∧
      ((forwardMask [[5, 6]]).getD 1 []).getD 0 0 =
        (if 0 ≤ 1 then (0 : EReal) else ⊥) :=
  C2_mask_is_query_square [[5, 6]] 1 0 (by decide) (by decide)

/-- C9: rms_norm.forward normalizes by one scalar computed from the whole
tensor - the mean of the squares over every element of every row jointly,
not per row - so each entry is weight_j * x_ij divided by the square root
of that shared scalar plus eps; the second conjunct exhibits two inputs
that agree on all of batch row 1 yet produce different outputs there,
because they differ in batch row 0. -/
theorem C9_rms_norm_global_mean :
    (∀ (s : RMSNorm) (x : List (List ℝ)) (i j : ℕ),
      (hi : i < x.length) → j < (x.getD i []).length → j < s.weight.length →
      ((rmsNormForward s x).getD i []).getD j 0 =
        s.weight.getD j 0 * (x.getD i []).getD j 0 /
          Real.sqrt (meanSqAll x + s.eps)) ∧
    ((rmsNormForward ⟨[1], 0⟩ [[0], [1]]).getD 1 []).getD 0 0 ≠
      ((rmsNormForward ⟨[1], 0⟩ [[1], [1]]).getD 1 []).getD 0 0 := by
  constructor
  · intro s x i j hi hj hw
    have hj1 : j < (x.getD i []).length := hj
    rw [List.getD_eq_getElem x [] hi] at hj1
    have hi2 : i < (x.map (fun row =>
        (List.zipWith (fun w v => w * v) s.weight row).map
          (fun u => u / Real.sqrt (meanSqAll x + s.eps)))).length := by
      simpa using hi
    unfold rmsNormForward
    rw [List.getD_eq_getElem _ _ hi2, List.getElem_map]
    have hj2 : j < ((List.zipWith (fun w v => w * v) s.weight (x.get ⟨i, hi⟩)).map
        (fun u => u / Real.sqrt (meanSqAll x + s.eps))).length := by
      rw [List.length_map, List.length_zipWith]
      exact lt_min hw (by simpa [List.get_eq_getElem] using hj1)
    rw [List.getD_eq_getElem _ _ (by simpa [List.get_eq_getElem] using hj2),
      List.getElem_map, List.getElem_zipWith]
    rw [List.getD_eq_getElem x [] hi, List.getD_eq_getElem _ _ hj1,
      List.getD_eq_getElem s.weight 0 hw]
  · have e1 : ((rmsNormForward ⟨[1], 0⟩ [[0], [1]]).getD 1 []).getD 0 0 =
        1 / Real.sqrt (1 / 2) := by
      norm_num [rmsNormForward, meanSqAll]
    have e2 : ((rmsNormForward ⟨[1], 0⟩ [[1], [1]]).getD 1 []).getD 0 0 = 1 := by
      norm_num [rmsNormForward, meanSqAll, Real.sqrt_one]
    rw [e1, e2]
    have hpos : 0 < Real.sqrt (1 / 2) := Real.sqrt_pos.mpr (by norm_num)
    intro heq
    rw [div_eq_one_iff_eq (ne_of_gt hpos)] at heq
    have h12 := Real.sqrt_eq_one.mp heq.symm
    norm_num at h12

/-- C9 witness at a concrete input: one weight 2, eps 1, single entry 3. -/
theorem C9_witness :
    ((rmsNormForward ⟨[2], 1⟩ [[3]]).getD 0 []).getD 0 0 =
      (⟨[2], 1⟩ : RMSNorm).weight.getD 0 0 * (([[(3 : ℝ)]].getD 0 []).getD 0 0) /
        Real.sqrt (meanSqAll [[3]] + (⟨[2], 1⟩ : RMSNorm).eps) :=
  C9_rms_norm_global_mean.1 ⟨[2], 1⟩ [[3]] 0 0 (by simp) (by simp) (by simp)

theorem splitKey_length (k : PRNGKey) (n : ℕ) : (splitKey k n).length = n := by
  simp [splitKey]

theorem topPRow_singleton (p v : ℝ) : topPRow p [v] = [v] := by
  simp [topPRow, List.mapIdx_cons, Nat.zero_le]

theorem select_index_singleton (v : ℝ) (k : PRNGKey) (hv : v ≠ 0) :
    select_index [v] k = 0 := by
  have h1 : [v].map (fun u => u / [v].sum) = [1] := by
    simp [div_self hv]
  simp only [select_index, h1, choiceIdx]
  have hc : cumsum [(1 : ℝ)] = [(1 : ℝ)] := by norm_num [cumsum, cumsumFrom]
  rw [hc, show firstIdxWhere (fun c => uniformUnit k < c) [(1 : ℝ)] = some 0 from by
    simp [firstIdxWhere, uniformUnit_lt_one k]]

theorem sample_top_k_one (rows : List (List ℝ)) (h : ∀ r ∈ rows, r ≠ []) :
    sample_top_k rows (some 1) = .ok (rows.map (fun r => r.take 1)) := by
  have hall : (rows.map (fun r => r.take 1)).all (fun r => r.length = 1) = true := by
    rw [List.all_eq_true]
    intro q hq
    obtain ⟨r, hr, rfl⟩ := List.mem_map.mp hq
    have hr0 : r.length ≠ 0 := fun h0 => h r hr (List.length_eq_zero.mp h0)
    simp only [List.length_take, decide_eq_true_eq]
    omega
  simp only [sample_top_k, Option.getD_some]
  rw [if_pos hall]

theorem sample_top_p_ok (rows : List (List ℝ)) (tp : Option ℝ)
    (h : ∀ r ∈ rows, r ≠ []) :
    sample_top_p rows tp = .ok (rows.map (topPRow (tp.getD (9 / 10)))) := by
  have hany : rows.any (fun r => r.isEmpty) = false := by
    rw [List.any_eq_false]
    intro r hr
    simpa [List.isEmpty_iff] using h r hr
  simp [sample_top_p, hany]

/-- The whole post-sort pipeline of sample_tokens at top_k = 1, over any
batch of non-empty strictly positive probability rows: per row, take 1
keeps only the best-ranked probability, top-p keeps that single entry,
the weighted draw over a one-point distribution picks rank 0 whatever the
subkey, and the gather through the sort permutation returns the first
index attaining the row maximum. -/
theorem pipeline_topk1 (P : List (List ℝ)) (ks : List PRNGKey) (p : ℝ)
    (hP : ∀ r ∈ P, r ≠ []) (hpos : ∀ r ∈ P, ∀ x ∈ r, 0 < x)
    (hks : ks.length = P.length) :
    takeAlongKeepdims (sortIndices P)
      (List.zipWith select_index
        (((takeAlongRows P (sortIndices P)).map (fun r => r.take 1)).map (topPRow p))
        ks) =
      P.map (fun r => [argmax r]) := by
  induction P generalizing ks with
  | nil => simp [takeAlongKeepdims, sortIndices, takeAlongRows]
  | cons r P ih =>
    cases ks with
    | nil => simp at hks
    | cons sk ks =>
      have hrne : r ≠ [] := hP r (by simp)
      obtain ⟨tl, htl⟩ := argsortDesc_head r hrne
      have hvpos : 0 < r.getD (argmax r) 0 := by
        have hA : argmax r < r.length := argmax_lt_length r hrne
        rw [List.getD_eq_getElem _ _ hA]
        exact hpos r (by simp) _ (List.getElem_mem hA)
      simp only [sortIndices, List.map_cons, takeAlongRows, List.zipWith_cons_cons,
        takeAlongKeepdims]
      rw [htl]
      simp only [List.map_cons, List.take_succ_cons, List.take_zero]
      rw [topPRow_singleton, select_index_singleton _ _ (ne_of_gt hvpos)]
      simp only [List.cons.injEq, List.getD_cons_zero]
      refine ⟨trivial, ?_⟩
      have hres := ih ks (fun q hq => hP q (by simp [hq]))
        (fun q hq x hx => hpos q (by simp [hq]) x hx) (by simpa using hks)
      simpa [sortIndices, takeAlongRows, takeAlongKeepdims] using hres

/-- Full evaluation of sample_tokens at top_k = 1: for every non-zero
temperature, every top_p and every key, each batch row receives the first
index attaining the maximum of its temperature-scaled logits, and the
successor key is the head of the split. -/
theorem sample_tokens_topk1_eval (logits : List (List ℝ)) (k : PRNGKey) (T : ℝ)
    (tp : Option ℝ) (hT : T ≠ 0) (h : ∀ r ∈ logits, r ≠ []) :
    sample_tokens logits (some k) (some T) (some 1) tp =
      .ok (logits.map (fun r => [argmax (r.map (fun v => v / T))]),
        some ((splitKey k (logits.length + 1)).headD k)) := by
  have hmapne : ∀ r ∈ logits, r.map (fun v => v / T) ≠ [] := by
    intro r hr hcon
    exact h r hr (List.map_eq_nil_iff.mp hcon)
  have hP : ∀ r ∈ (logits.map (fun q => q.map (fun v => v / T))).map softmaxRow,
      r ≠ [] := by
    intro r hr
    obtain ⟨q, hq, rfl⟩ := List.mem_map.mp hr
    obtain ⟨q0, hq0, rfl⟩ := List.mem_map.mp hq
    have hlen : (softmaxRow (q0.map (fun v => v / T))).length = q0.length := by
      simp [softmaxRow]
    intro hcon
    rw [hcon] at hlen
    exact h q0 hq0 (List.length_eq_zero.mp hlen.symm)
  have hpos : ∀ r ∈ (logits.map (fun q => q.map (fun v => v / T))).map softmaxRow,
      ∀ x ∈ r, 0 < x := by
    intro r hr
    obtain ⟨q, hq, rfl⟩ := List.mem_map.mp hr
    obtain ⟨q0, hq0, rfl⟩ := List.mem_map.mp hq
    exact softmaxRow_pos _ (hmapne q0 hq0)
  have hsne : ∀ r ∈ takeAlongRows ((logits.map (fun q => q.map (fun v => v / T))).map softmaxRow)
      (sortIndices ((logits.map (fun q => q.map (fun v => v / T))).map softmaxRow)), r ≠ [] := by
    intro r hr
    obtain ⟨i, hi, rfl⟩ := List.mem_iff_getElem.mp hr
    simp only [takeAlongRows] at hi ⊢
    rw [List.getElem_zipWith]
    have hil : i < logits.length := by
      simp only [List.length_zipWith, sortIndices, List.length_map, Nat.min_self] at hi
      simpa using hi
    simp only [sortIndices, List.getElem_map]
    have hrowne : softmaxRow (List.map (fun v => v / T) logits[i]) ≠ [] := by
      have hlen : (softmaxRow (List.map (fun v => v / T) logits[i])).length =
          (logits[i]).length := by
        simp [softmaxRow]
      intro hcon
      rw [hcon] at hlen
      exact h _ (List.getElem_mem hil) (List.length_eq_zero.mp hlen.symm)
    obtain ⟨tl, htl⟩ := argsortDesc_head _ hrowne
    rw [htl]
    simp
  have htkne : ∀ r ∈ (takeAlongRows ((logits.map (fun q => q.map (fun v => v / T))).map softmaxRow)
      (sortIndices ((logits.map (fun q => q.map (fun v => v / T))).map softmaxRow))).map
        (fun r => r.take 1), r ≠ [] := by
    intro r hr
    obtain ⟨q, hq, rfl⟩ := List.mem_map.mp hr
    have := hsne q hq
    cases q with
    | nil => cases this rfl
    | cons a l => simp
  have hkslen : ((splitKey k (logits.length + 1)).tail).length =
      ((logits.map (fun q => q.map (fun v => v / T))).map softmaxRow).length := by
    simp [List.length_tail, splitKey_length]
  simp only [sample_tokens, Option.getD_some]
  rw [if_neg (by simp), if_neg hT]
  rw [sample_top_k_one _ hsne]
  dsimp only
  rw [sample_top_p_ok _ tp htkne]
  dsimp only
  rw [pipeline_topk1 _ _ _ hP hpos hkslen]
  have hfin : ((logits.map (fun q => q.map (fun v => v / T))).map softmaxRow).map
      (fun r => [argmax r]) =
      logits.map (fun r => [argmax (r.map (fun v => v / T))]) := by
    rw [List.map_map, List.map_map]
    apply List.map_congr_left
    intro q hq
    simp only [Function.comp_apply]
    rw [argmax_softmaxRow _ (hmapne q hq)]
  rw [hfin]

/-- C7 (amended): for every positive temperature, every top_p and every
rng state, sampling with top_k = 1 returns in every batch row the first
index attaining the row maximum of the logits - the highest-probability
token, which for positive temperature is also the highest-logit token.
For negative temperature the scaling inverts the ranking, so the
highest-logit reading fails there (see the counterexample). -/
theorem C7_topk1_returns_argmax (logits : List (List ℝ)) (k : PRNGKey) (T : ℝ)
    (tp : Option ℝ) (hT : 0 < T) (h : ∀ r ∈ logits, r ≠ []) :
    sample_tokens logits (some k) (some T) (some 1) tp =
      .ok (logits.map (fun r => [argmax r]),
        some ((splitKey k (logits.length + 1)).headD k)) := by
  rw [sample_tokens_topk1_eval logits k T tp (ne_of_gt hT) h]
  have hmap : logits.map (fun r => [argmax (r.map (fun v => v / T))]) =
      logits.map (fun r => [argmax r]) := by
    apply List.map_congr_left
    intro r hr
    rw [argmax_map (fun v => v / T)
      (fun a b => (div_lt_div_iff_of_pos_right hT).symm) r]
  rw [hmap]

/-- C7 witness at a concrete input: with logits 0, 1 and temperature 1,
top_k = 1 picks index 1. -/
theorem C7_witness :
    sample_tokens [[(0 : ℝ), 1]] (some 5) (some 1) (some 1) none =
      .ok ([[(0 : ℝ), 1]].map (fun r => [argmax r]),
        some ((splitKey 5 ([[(0 : ℝ), 1]].length + 1)).headD 5)) :=
  C7_topk1_returns_argmax [[(0 : ℝ), 1]] 5 1 none (by norm_num)
    (by intro r hr; simp at hr; rw [hr]; simp)

/-- C7 counterexample to the claim as stated: at temperature -1 (non-zero,
so inside the quantifier of the claim) with logits 0, 1, top_k = 1 returns
token 0, while the highest-logit (and highest pre-scaling probability)
token of that row is index 1. -/
theorem C7_counterexample :
    sample_tokens [[(0 : ℝ), 1]] (some 5) (some (-1)) (some 1) none =
        .ok ([[0]], some ((splitKey 5 2).headD 5)) ∧
      argmax [(0 : ℝ), 1] = 1 ∧ (0 : ℕ) ≠ 1 := by
  refine ⟨?_, ?_, by omega⟩
  · have h := sample_tokens_topk1_eval [[(0 : ℝ), 1]] 5 (-1) none (by norm_num)
      (by intro r hr; simp at hr; rw [hr]; simp)
    rw [h]
    simp only [List.map_cons, List.map_nil]
    have ha : argmax [(0 : ℝ) / -1, 1 / -1] = 0 := by
      rw [show [(0 : ℝ) / -1, 1 / -1] = [0, -1] by norm_num]
      rw [show argmax [(0 : ℝ), -1] =
        (if (0 : ℝ) < [(-1 : ℝ)].getD (argmax [(-1 : ℝ)]) 0
         then argmax [(-1 : ℝ)] + 1 else 0) from rfl]
      norm_num [argmax]
    rw [ha]
    simp
  · rw [show argmax [(0 : ℝ), 1] =
      (if (0 : ℝ) < [(1 : ℝ)].getD (argmax [(1 : ℝ)]) 0
       then argmax [(1 : ℝ)] + 1 else 0) from rfl]
    norm_num [argmax]

theorem sample_top_k_too_big (rows : List (List ℝ)) (kk : ℕ) (hne : rows ≠ [])
    (hlen : ∀ r ∈ rows, r.length < kk) :
    sample_top_k rows (some kk) =
      .error "AssertionError: probs.shape[-1] == top_k" := by
  cases rows with
  | nil => cases hne rfl
  | cons r rest =>
    have hr := hlen r (by simp)
    have hall : ((r :: rest).map (fun q => q.take kk)).all
        (fun q => q.length = kk) = false := by
      rw [List.all_eq_false]
      refine ⟨r.take kk, by simp, ?_⟩
      simp only [decide_eq_true_eq, List.length_take]
      omega
    simp only [sample_top_k, Option.getD_some]
    rw [if_neg (by rw [hall]; simp)]

/-- C6 counterexample to the claim as stated: sample_tokens can raise even
with an rng state present - here key 0 is supplied, the effective
temperature is the non-zero default 0.6, and top_k = 3 on a two-token
vocabulary trips the top-k shape assertion - so an error is not raised
EXACTLY when the rng state is absent with non-zero temperature. -/
theorem C6_counterexample :
    sample_tokens [[(0 : ℝ), 0]] (some 0) none (some 3) none =
      .error "AssertionError: probs.shape[-1] == top_k" := by
  simp only [sample_tokens, Option.getD_none]
  rw [if_neg (by simp), if_neg (by norm_num)]
  rw [sample_top_k_too_big _ 3 (by simp [takeAlongRows, sortIndices])
    (by
      intro r hr
      simp only [takeAlongRows, sortIndices, List.map_cons, List.map_nil,
        List.zipWith_cons_cons, List.zipWith_nil_right, List.mem_singleton] at hr
      rw [hr, List.length_map, argsortDesc_length, softmaxRow_length]
      norm_num)]

end LlamaJax
